import Mathlib

/-!
Verification of the Bowyer-Watson Delaunay/Voronoi implementation in
`src/Bowyer/bowyer_watson.py`.

The implementation is shallowly embedded: points carry exact rational
coordinates, the Python `set`s are modelled as duplicate-free lists kept in a
canonical (insertion) order, and the two Python failure modes (`min()` on an
empty sequence) are modelled by an `Option` result.  All functions mirror the
source line by line.
-/

namespace BowyerWatson

/-- A 2-D point, mirroring `Point = namedtuple('Point', ['x', 'y'])`. -/
structure Point where
  x : ℚ
  y : ℚ
deriving DecidableEq

/-- Lexicographic comparison on (x, y), mirroring Python tuple ordering used
by `sorted` in the `Triangle` and `Edge` constructors. -/
def ptLe (p q : Point) : Bool :=
  if p.x < q.x then true
  else if q.x < p.x then false
  else decide (p.y ≤ q.y)

/-- Order a pair of points, mirroring `sorted((v1, v2))`. -/
def sort2 (p q : Point) : Point × Point := if ptLe p q then (p, q) else (q, p)

/-- Order a triple of points (three-element sorting network), mirroring
`sorted((v1, v2, v3))`. -/
def sort3 (a b c : Point) : Point × Point × Point :=
  let (a1, b1) := sort2 a b
  let (b2, c2) := sort2 b1 c
  let (a3, b3) := sort2 a1 b2
  (a3, b3, c2)

/-- A canonical (sorted) unordered pair of points, mirroring
`Edge = namedtuple('Edge', ['v1', 'v2'])` as built by
`Edge(*tuple(sorted((v1, v2))))`. -/
structure Edge where
  v1 : Point
  v2 : Point
deriving DecidableEq

/-- Build the canonical edge for two vertices. -/
def mkEdge (a b : Point) : Edge :=
  let s := sort2 a b
  ⟨s.1, s.2⟩

/-- A triangle, mirroring class `Triangle`: vertices stored sorted. -/
structure Triangle where
  v1 : Point
  v2 : Point
  v3 : Point
deriving DecidableEq

/-- Build a triangle with vertices in canonical order, mirroring
`self.vertices = tuple(sorted((v1, v2, v3)))`. -/
def mkTriangle (a b c : Point) : Triangle :=
  let s := sort3 a b c
  ⟨s.1, s.2.1, s.2.2⟩

/-- The collinearity threshold `1e-10` of `_calculate_circumcircle`. -/
def eps : ℚ := 1 / 10 ^ 10

/-- Squared euclidean distance between two points. -/
def distSq (p q : Point) : ℚ := (p.x - q.x) ^ 2 + (p.y - q.y) ^ 2

/-- Mirror of `Triangle._calculate_circumcircle`, applied to the (sorted)
vertex triple.  `none` encodes the Python return `(None, float('inf'))`
(absent circumcenter, infinite squared circumradius); `some (c, rsq)` is a
present circumcenter with its squared circumradius. -/
def calculateCircumcircle (p1 p2 p3 : Point) : Option (Point × ℚ) :=
  let D := 2 * (p1.x * (p2.y - p3.y) + p2.x * (p3.y - p1.y) + p3.x * (p1.y - p2.y))
  if |D| < eps then none
  else
    let p1s := p1.x ^ 2 + p1.y ^ 2
    let p2s := p2.x ^ 2 + p2.y ^ 2
    let p3s := p3.x ^ 2 + p3.y ^ 2
    let ux := (p1s * (p2.y - p3.y) + p2s * (p3.y - p1.y) + p3s * (p1.y - p2.y)) / D
    let uy := (p1s * (p3.x - p2.x) + p2s * (p1.x - p3.x) + p3s * (p2.x - p1.x)) / D
    some (⟨ux, uy⟩, (p1.x - ux) ^ 2 + (p1.y - uy) ^ 2)

/-- The circumcircle data of a triangle (computed from its stored vertices,
exactly as the Python constructor does once at construction time). -/
def Triangle.circum (t : Triangle) : Option (Point × ℚ) :=
  calculateCircumcircle t.v1 t.v2 t.v3

/-- The circumcenter of a triangle (`self.circumcenter`), absent for
(near-)collinear vertices. -/
def Triangle.circumcenter (t : Triangle) : Option Point :=
  t.circum.map Prod.fst

/-- Mirror of `Triangle.point_in_circumcircle`. -/
def Triangle.point_in_circumcircle (t : Triangle) (p : Point) : Bool :=
  match t.circum with
  | none => false
  | some (c, rsq) => decide (distSq p c < rsq)

/-- The three canonical edges of a triangle, mirroring the loop
`for i in range(3): edge = Edge(*tuple(sorted((vertices[i], vertices[(i+1)%3]))))`. -/
def Triangle.edges (t : Triangle) : List Edge :=
  [mkEdge t.v1 t.v2, mkEdge t.v2 t.v3, mkEdge t.v3 t.v1]

/-- One toggle step of the cavity-boundary computation: insert the edge if
absent, remove it if present (mirror of the `polygon_boundary` if/else). -/
def toggle (s : List Edge) (e : Edge) : List Edge :=
  if e ∈ s then s.erase e else s ++ [e]

/-- The cavity boundary (`polygon_boundary`) obtained by toggling every edge
of every bad triangle into an initially empty set. -/
def boundaryEdges (bad : List Triangle) : List Edge :=
  bad.foldl (fun s t => t.edges.foldl toggle s) []

/-- Set-insertion of a triangle (`self.triangulation.add(new_triangle)`). -/
def addTriangle (l : List Triangle) (t : Triangle) : List Triangle :=
  if t ∈ l then l else l ++ [t]

/-- One iteration of the insertion loop in `BowyerWatson.run`: find the bad
triangles, extract the cavity boundary, remove the bad triangles and
retriangulate the hole around `p`. -/
def insertPoint (tri : List Triangle) (p : Point) : List Triangle :=
  let bad := tri.filter (fun t => t.point_in_circumcircle p)
  let boundary := boundaryEdges bad
  let kept := tri.filter (fun t => !(t.point_in_circumcircle p))
  boundary.foldl (fun acc e => addTriangle acc (mkTriangle e.v1 e.v2 p)) kept

/-- `min(p.x for p in points)` over the nonempty list `p0 :: rest`. -/
def minX (p0 : Point) (rest : List Point) : ℚ :=
  rest.foldl (fun m q => min m q.x) p0.x

/-- `max(p.x for p in points)`. -/
def maxX (p0 : Point) (rest : List Point) : ℚ :=
  rest.foldl (fun m q => max m q.x) p0.x

/-- `min(p.y for p in points)`. -/
def minY (p0 : Point) (rest : List Point) : ℚ :=
  rest.foldl (fun m q => min m q.y) p0.y

/-- `max(p.y for p in points)`. -/
def maxY (p0 : Point) (rest : List Point) : ℚ :=
  rest.foldl (fun m q => max m q.y) p0.y

/-- `delta_max = max(dx, dy)` of `_create_super_triangle`. -/
def deltaMax (p0 : Point) (rest : List Point) : ℚ :=
  max (maxX p0 rest - minX p0 rest) (maxY p0 rest - minY p0 rest)

/-- `mid_x = (min_x + max_x) / 2`. -/
def midX (p0 : Point) (rest : List Point) : ℚ := (minX p0 rest + maxX p0 rest) / 2

/-- `mid_y = (min_y + max_y) / 2`. -/
def midY (p0 : Point) (rest : List Point) : ℚ := (minY p0 rest + maxY p0 rest) / 2

/-- First super-triangle vertex `v1 = Point(mid_x - 20*delta_max, mid_y - 10*delta_max)`. -/
def superV1 (p0 : Point) (rest : List Point) : Point :=
  ⟨midX p0 rest - 20 * deltaMax p0 rest, midY p0 rest - 10 * deltaMax p0 rest⟩

/-- Second super-triangle vertex `v2 = Point(mid_x + 20*delta_max, mid_y - 10*delta_max)`. -/
def superV2 (p0 : Point) (rest : List Point) : Point :=
  ⟨midX p0 rest + 20 * deltaMax p0 rest, midY p0 rest - 10 * deltaMax p0 rest⟩

/-- Third super-triangle vertex `v3 = Point(mid_x, mid_y + 20*delta_max)`. -/
def superV3 (p0 : Point) (rest : List Point) : Point :=
  ⟨midX p0 rest, midY p0 rest + 20 * deltaMax p0 rest⟩

/-- Mirror of `BowyerWatson._create_super_triangle`; the input list of points
is passed as head plus tail so that the bounding-box minima/maxima exist. -/
def createSuperTriangle (p0 : Point) (rest : List Point) : Triangle × List Point :=
  (mkTriangle (superV1 p0 rest) (superV2 p0 rest) (superV3 p0 rest),
   [superV1 p0 rest, superV2 p0 rest, superV3 p0 rest])

/-- One entry of the `edge_to_triangles` mapping: append `t` to the list of
the entry with key `e`, or add a fresh `(e, [t])` entry at the end (mirror of
the dict update in `_derive_voronoi_diagram`; Python dicts preserve insertion
order). -/
def insertIncidence (m : List (Edge × List Triangle)) (e : Edge) (t : Triangle) :
    List (Edge × List Triangle) :=
  match m with
  | [] => [(e, [t])]
  | (e0, l) :: rest =>
    if e0 = e then (e0, l ++ [t]) :: rest
    else (e0, l) :: insertIncidence rest e t

/-- The `edge_to_triangles` mapping of `_derive_voronoi_diagram`. -/
def edgeToTriangles (tris : List Triangle) : List (Edge × List Triangle) :=
  tris.foldl (fun m t => t.edges.foldl (fun acc e => insertIncidence acc e t) m) []

/-- Mirror of `BowyerWatson._derive_voronoi_diagram`: for every edge shared by
exactly two triangles whose circumcenters are both present, emit the segment
between the two circumcenters. -/
def deriveVoronoiDiagram (tris : List Triangle) : List (Point × Point) :=
  (edgeToTriangles tris).foldl (fun acc entry =>
    match entry.2 with
    | [t1, t2] =>
      match t1.circumcenter, t2.circumcenter with
      | some c1, some c2 => acc ++ [(c1, c2)]
      | _, _ => acc
    | _ => acc) []

/-- The observable outcome of `BowyerWatson.run`: the finalized triangulation
(`self.triangulation` after super-triangle cleanup) and the Voronoi edge list. -/
structure RunResult where
  triangulation : List Triangle
  voronoi_edges : List (Point × Point)
deriving DecidableEq

/-- Mirror of `BowyerWatson.run`.  `none` models the Python exception raised
by `min()` on an empty sequence when no point is supplied; on a nonempty
input the run always returns a result. -/
def run : List Point → Option RunResult
  | [] => none
  | p0 :: rest =>
    let superT := (createSuperTriangle p0 rest).1
    let sv := (createSuperTriangle p0 rest).2
    let afterAll := (p0 :: rest).foldl insertPoint [superT]
    let final := afterAll.filter
      (fun t => !(decide (t.v1 ∈ sv ∨ t.v2 ∈ sv ∨ t.v3 ∈ sv)))
    some ⟨final, deriveVoronoiDiagram final⟩

/-! Specification-side definitions, used to state the claims. -/

/-- All edges of a list of triangles, with multiplicity. -/
def allEdges (tris : List Triangle) : List Edge :=
  tris.foldr (fun t acc => t.edges ++ acc) []

/-- The triangles of `tris` incident to the edge `e`, in list order. -/
def incidentTris (tris : List Triangle) (e : Edge) : List Triangle :=
  tris.filter (fun t => decide (e ∈ t.edges))

/-- The keys of an edge-to-triangles association list. -/
def keysOf (m : List (Edge × List Triangle)) : List Edge := m.map Prod.fst

/-- Lookup in an edge-to-triangles association list (first matching key);
`[]` for an absent key. -/
def lookupEdge : List (Edge × List Triangle) → Edge → List Triangle
  | [], _ => []
  | (e0, l) :: rest, e => if e0 = e then l else lookupEdge rest e

/-- The distinct Delaunay edges of a triangulation. -/
def delaunayEdges (tris : List Triangle) : List Edge := (allEdges tris).dedup

/-- The interior Delaunay edges: those with exactly two incident triangles. -/
def interiorEdges (tris : List Triangle) : List Edge :=
  (delaunayEdges tris).filter (fun e => decide ((incidentTris tris e).length = 2))

/-- An incidence list consists of exactly two triangles, both with a present
circumcenter. -/
def bothPresent (l : List Triangle) : Bool :=
  match l with
  | [t1, t2] => t1.circumcenter.isSome && t2.circumcenter.isSome
  | _ => false

/-- The interior Delaunay edges both of whose incident triangles have a
present circumcenter. -/
def goodInteriorEdges (tris : List Triangle) : List Edge :=
  (delaunayEdges tris).filter (fun e => bothPresent (incidentTris tris e))

/-- The Voronoi edge emitted for one incidence list: present exactly when the
list has exactly two triangles and both circumcenters are present, in which
case the emitted segment joins the two circumcenters. -/
def emitEntry (l : List Triangle) : Option (Point × Point) :=
  match l with
  | [t1, t2] =>
    match t1.circumcenter, t2.circumcenter with
    | some c1, some c2 => some (c1, c2)
    | _, _ => none
  | _ => none

/-- Twice the signed area of the triangle `a b p`. -/
def cross (a b p : Point) : ℚ :=
  (b.x - a.x) * (p.y - a.y) - (b.y - a.y) * (p.x - a.x)

/-- `p` lies strictly inside the triangle `t`: for each side of `t`, `p` lies
strictly on the same (open) side as the opposite vertex. -/
def strictlyInside (t : Triangle) (p : Point) : Prop :=
  0 < cross t.v1 t.v2 p * cross t.v1 t.v2 t.v3 ∧
  0 < cross t.v2 t.v3 p * cross t.v2 t.v3 t.v1 ∧
  0 < cross t.v3 t.v1 p * cross t.v3 t.v1 t.v2

instance (t : Triangle) (p : Point) : Decidable (strictlyInside t p) := by
  unfold strictlyInside; infer_instance

/-! Concrete inputs used by the scenario claims. -/

/-- The collinear scenario input `(0,0),(1,0),(2,0)`. -/
def collinear3 : List Point := [⟨0, 0⟩, ⟨1, 0⟩, ⟨2, 0⟩]

/-- The square scenario input `(0,0),(2,0),(2,2),(0,2)`. -/
def squarePts : List Point := [⟨0, 0⟩, ⟨2, 0⟩, ⟨2, 2⟩, ⟨0, 2⟩]

/-- The lower-right triangle of the square output. -/
def sqT1 : Triangle := ⟨⟨0, 0⟩, ⟨2, 0⟩, ⟨2, 2⟩⟩

/-- The upper-left triangle of the square output. -/
def sqT2 : Triangle := ⟨⟨0, 0⟩, ⟨0, 2⟩, ⟨2, 2⟩⟩

/-- A square input scaled to 1/200000, small enough that its two output
triangles fall under the absolute collinearity threshold `1e-10`. -/
def tinySquarePts : List Point :=
  [⟨0, 0⟩, ⟨1/200000, 0⟩, ⟨1/200000, 1/200000⟩, ⟨0, 1/200000⟩]

/-- First output triangle of the tiny-square run. -/
def tinyT1 : Triangle := ⟨⟨0, 0⟩, ⟨1/200000, 0⟩, ⟨1/200000, 1/200000⟩⟩

/-- Second output triangle of the tiny-square run. -/
def tinyT2 : Triangle := ⟨⟨0, 0⟩, ⟨0, 1/200000⟩, ⟨1/200000, 1/200000⟩⟩

/-- An input on which the finalized triangulation violates the Delaunay
property: a sliver triangle over the horizontal pair at distance `1e-11`
falls under the absolute threshold `1e-10` although it is not collinear. -/
def c1FailInput : List Point := [⟨1/10^11, 1⟩, ⟨3, 3⟩, ⟨0, 1⟩, ⟨0, 4⟩]

/-- The (treated-as-degenerate) sliver triangle in the output of
`run c1FailInput`. -/
def c1DegenerateTriangle : Triangle := ⟨⟨0, 1⟩, ⟨1/10^11, 1⟩, ⟨3, 3⟩⟩

/-- The output triangle of `run c1FailInput` whose circumcircle strictly
contains the input point `(1e-11, 1)`. -/
def c1ViolatingTriangle : Triangle := ⟨⟨0, 1⟩, ⟨0, 4⟩, ⟨3, 3⟩⟩

/-! ## Theorems -/

/-- Claim C3: for every triple of points, the circumcircle computation returns
an absent circumcenter (and, in the Python original, circumradius² = +∞,
encoded here jointly as `none`) exactly when `|D| < 1e-10` for
`D = 2·(p1.x(p2.y−p3.y) + p2.x(p3.y−p1.y) + p3.x(p1.y−p2.y))`; otherwise it
returns the center given by the squared-coordinate-sums formula together with
the squared distance from `p1` to that center. -/
theorem c3_circumcircle_spec (p1 p2 p3 : Point) :
    (calculateCircumcircle p1 p2 p3 = none ↔
      |2 * (p1.x * (p2.y - p3.y) + p2.x * (p3.y - p1.y) + p3.x * (p1.y - p2.y))| <
        1 / 10 ^ 10) ∧
    ∀ c rsq, calculateCircumcircle p1 p2 p3 = some (c, rsq) →
      c.x = ((p1.x ^ 2 + p1.y ^ 2) * (p2.y - p3.y) + (p2.x ^ 2 + p2.y ^ 2) * (p3.y - p1.y) +
              (p3.x ^ 2 + p3.y ^ 2) * (p1.y - p2.y)) /
            (2 * (p1.x * (p2.y - p3.y) + p2.x * (p3.y - p1.y) + p3.x * (p1.y - p2.y))) ∧
      c.y = ((p1.x ^ 2 + p1.y ^ 2) * (p3.x - p2.x) + (p2.x ^ 2 + p2.y ^ 2) * (p1.x - p3.x) +
              (p3.x ^ 2 + p3.y ^ 2) * (p2.x - p1.x)) /
            (2 * (p1.x * (p2.y - p3.y) + p2.x * (p3.y - p1.y) + p3.x * (p1.y - p2.y))) ∧
      rsq = distSq p1 c := by
  constructor
  · by_cases h : |2 * (p1.x * (p2.y - p3.y) + p2.x * (p3.y - p1.y) + p3.x * (p1.y - p2.y))| <
        1 / 10 ^ 10
    · simp [calculateCircumcircle, eps, h]
    · simp [calculateCircumcircle, eps, h]
  · intro c rsq h
    simp only [calculateCircumcircle, eps] at h
    split at h
    · exact Option.noConfusion h
    · injection h with h'
      rw [Prod.ext_iff] at h'
      obtain ⟨hc, hr⟩ := h'
      subst hc
      subst hr
      exact ⟨rfl, rfl, rfl⟩

set_option maxRecDepth 100000 in
unseal Rat.add Rat.sub Rat.mul Rat.inv in
/-- Witness for C3 at concrete inputs: the collinear triple `(0,0),(1,0),(2,0)`
has an absent circumcircle, and for the right triangle `(0,0),(2,0),(0,2)` the
computed squared radius is the squared distance from the first vertex to the
returned center `(1,1)`. -/
theorem c3_circumcircle_spec_witness :
    calculateCircumcircle ⟨0, 0⟩ ⟨1, 0⟩ ⟨2, 0⟩ = none ∧
    (2 : ℚ) = distSq ⟨0, 0⟩ ⟨1, 1⟩ :=
  ⟨(c3_circumcircle_spec ⟨0, 0⟩ ⟨1, 0⟩ ⟨2, 0⟩).1.mpr (by decide),
   ((c3_circumcircle_spec ⟨0, 0⟩ ⟨2, 0⟩ ⟨0, 2⟩).2 ⟨1, 1⟩ 2 (by decide)).2.2⟩

/-- Claim C4: the point-in-circumcircle predicate returns false whenever the
circumcenter is absent, and otherwise returns true iff the squared distance
from the query point to the circumcenter is strictly less than the squared
circumradius (points exactly on the circle are not inside). -/
theorem c4_point_in_circumcircle_spec (t : Triangle) (p : Point) :
    (t.circum = none → t.point_in_circumcircle p = false) ∧
    ∀ c rsq, t.circum = some (c, rsq) →
      (t.point_in_circumcircle p = true ↔ distSq p c < rsq) := by
  constructor
  · intro h
    unfold Triangle.point_in_circumcircle
    rw [h]
  · intro c rsq h
    unfold Triangle.point_in_circumcircle
    rw [h]
    exact decide_eq_true_iff

set_option maxRecDepth 100000 in
unseal Rat.add Rat.sub Rat.mul Rat.inv in
/-- Witness for C4 at concrete inputs: the degenerate triangle on
`(0,0),(1,0),(2,0)` reports `(0,1)` as not inside (fails closed), and the
right triangle `(0,0),(2,0),(0,2)` reports `(1,1)` as inside. -/
theorem c4_point_in_circumcircle_spec_witness :
    Triangle.point_in_circumcircle (mkTriangle ⟨0, 0⟩ ⟨1, 0⟩ ⟨2, 0⟩) ⟨0, 1⟩ = false ∧
    Triangle.point_in_circumcircle (mkTriangle ⟨0, 0⟩ ⟨2, 0⟩ ⟨0, 2⟩) ⟨1, 1⟩ = true :=
  ⟨(c4_point_in_circumcircle_spec (mkTriangle ⟨0, 0⟩ ⟨1, 0⟩ ⟨2, 0⟩) ⟨0, 1⟩).1 (by decide),
   ((c4_point_in_circumcircle_spec (mkTriangle ⟨0, 0⟩ ⟨2, 0⟩ ⟨0, 2⟩) ⟨1, 1⟩).2
      ⟨1, 1⟩ 2 (by decide)).mpr (by decide)⟩

set_option maxRecDepth 100000 in
unseal Rat.add Rat.sub Rat.mul Rat.inv in
/-- Claim C2 (counterexample): on the collinear input `(0,0),(1,0),(2,0)` the
run does NOT fail — no `DegenerateInputError` exists anywhere in the source —
it completes normally, returning an empty triangulation and no Voronoi edges. -/
theorem c2_counterexample : run collinear3 = some ⟨[], []⟩ := by decide

/-- On any nonempty input the run produces a result (the `some` constructor
is reached without evaluating the payload). -/
theorem run_cons_eq_some (p0 : Point) (rest : List Point) :
    ∃ r : RunResult, run (p0 :: rest) = some r :=
  ⟨_, rfl⟩

set_option maxRecDepth 100000 in
unseal Rat.add Rat.sub Rat.mul Rat.inv in
/-- Claim C2 (amended): the code defines no `DegenerateInputError`.  A run
fails (with Python's `ValueError` from `min()` on an empty sequence, modelled
as `none`) exactly when the input list is empty; on every nonempty input —
including collinear ones — it completes, and on `(0,0),(1,0),(2,0)` it returns
the empty triangulation with no Voronoi edges. -/
theorem c2_amended (pts : List Point) :
    (run pts = none ↔ pts = []) ∧
    (pts = collinear3 → run pts = some ⟨[], []⟩) := by
  constructor
  · cases pts with
    | nil => simp [run]
    | cons p0 rest =>
      constructor
      · intro h
        obtain ⟨r, hr⟩ := run_cons_eq_some p0 rest
        rw [hr] at h
        exact Option.noConfusion h
      · intro h
        exact absurd h (List.cons_ne_nil p0 rest)
  · rintro rfl
    decide

/-- Witness for C2 (amended) at concrete inputs. -/
theorem c2_amended_witness :
    run [] = none ∧ run collinear3 = some ⟨[], []⟩ :=
  ⟨(c2_amended []).1.mpr rfl, (c2_amended collinear3).2 rfl⟩

set_option maxRecDepth 100000 in
unseal Rat.add Rat.sub Rat.mul Rat.inv in
/-- Claim C9: on the square input `(0,0),(2,0),(2,2),(0,2)` the run returns
exactly the two triangles `(0,0),(2,0),(2,2)` and `(0,0),(0,2),(2,2)`, whose
unique common edge is the diagonal from `(0,0)` to `(2,2)`; both circumcenters
equal `(1,1)` and exactly one Voronoi edge is emitted, connecting them. -/
theorem c9_square_scenario :
    run squarePts = some ⟨[sqT1, sqT2], [(⟨1, 1⟩, ⟨1, 1⟩)]⟩ ∧
    sqT1.edges.filter (fun e => decide (e ∈ sqT2.edges)) = [mkEdge ⟨0, 0⟩ ⟨2, 2⟩] ∧
    sqT1.circumcenter = some ⟨1, 1⟩ ∧
    sqT2.circumcenter = some ⟨1, 1⟩ := by decide

set_option maxRecDepth 100000 in
unseal Rat.add Rat.sub Rat.mul Rat.inv in
/-- Claim C10: the Voronoi derivation can emit a degenerate edge whose two
endpoints are equal: the square run produces the Voronoi edge
`((1,1),(1,1))` because the two triangles of the cocircular square share the
same circumcenter, and no zero-length filtering is performed. -/
theorem c10_degenerate_voronoi_edge :
    ∃ r : RunResult, run squarePts = some r ∧ ∃ p : Point, (p, p) ∈ r.voronoi_edges :=
  ⟨⟨[sqT1, sqT2], [(⟨1, 1⟩, ⟨1, 1⟩)]⟩, by decide, ⟨1, 1⟩, by decide⟩

set_option maxRecDepth 1000000 in
unseal Rat.add Rat.sub Rat.mul Rat.inv in
/-- Claim C1 (code_bug evidence): on the input
`(1e-11,1),(3,3),(0,1),(0,4)` the completed run returns a triangulation
containing the triangle `(0,1),(0,4),(3,3)`, whose circumcenter `(7/6,5/2)` is
present, while the input point `(1e-11,1)` — not a vertex of that triangle —
lies strictly inside its circumcircle: the Delaunay property fails.  (The
sliver triangle over the pair at distance `1e-11` falls below the absolute
threshold `1e-10`, is treated as collinear, and corrupts cavity
retriangulation.) -/
theorem c1_delaunay_violation :
    ∃ r : RunResult, run c1FailInput = some r ∧
      c1ViolatingTriangle ∈ r.triangulation ∧
      (⟨1 / 10 ^ 11, 1⟩ : Point) ∈ c1FailInput ∧
      (⟨1 / 10 ^ 11, 1⟩ : Point) ∉
        [c1ViolatingTriangle.v1, c1ViolatingTriangle.v2, c1ViolatingTriangle.v3] ∧
      c1ViolatingTriangle.circumcenter = some ⟨7 / 6, 5 / 2⟩ ∧
      c1ViolatingTriangle.point_in_circumcircle ⟨1 / 10 ^ 11, 1⟩ = true :=
  ⟨⟨[c1DegenerateTriangle, c1ViolatingTriangle], []⟩,
   by decide, by decide, by decide, by decide, by decide, by decide⟩

set_option maxRecDepth 100000 in
unseal Rat.add Rat.sub Rat.mul Rat.inv in
/-- Claim C8 (counterexample): the tiny-square run returns a finalized
triangulation with one interior Delaunay edge (the diagonal, shared by its
two triangles) but zero Voronoi edges, because both circumcenters are absent
(the triangles fall below the absolute `1e-10` threshold): the emitted count
does not equal the interior-edge count. -/
theorem c8_counterexample :
    ∃ r : RunResult, run tinySquarePts = some r ∧
      r.voronoi_edges.length ≠ (interiorEdges r.triangulation).length :=
  ⟨⟨[tinyT1, tinyT2], []⟩, by decide, by decide⟩

set_option maxRecDepth 100000 in
unseal Rat.add Rat.sub Rat.mul Rat.inv in
/-- Claim C6 (counterexample): for the single-point input `(0,0)` the bounding
box is degenerate (`delta_max = 0`), all three super-triangle vertices
coincide with `(0,0)`, and the input point does not lie strictly inside the
super-triangle: the claimed strict containment fails for this nonempty input. -/
theorem c6_counterexample :
    (⟨0, 0⟩ : Point) ∈ [(⟨0, 0⟩ : Point)] ∧
    ¬ strictlyInside (createSuperTriangle ⟨0, 0⟩ []).1 ⟨0, 0⟩ := by
  exact ⟨by decide, by decide⟩

/-- Toggling preserves duplicate-freeness. -/
theorem toggle_nodup {s : List Edge} (h : s.Nodup) (e : Edge) : (toggle s e).Nodup := by
  unfold toggle
  split
  · exact h.erase e
  · next he =>
    refine List.Nodup.append h (List.nodup_singleton e) ?_
    intro x hx hxe
    rw [List.mem_singleton] at hxe
    subst hxe
    exact he hx

/-- A fold of toggles over any edge list preserves duplicate-freeness. -/
theorem foldl_toggle_nodup (es : List Edge) {s : List Edge} (h : s.Nodup) :
    (es.foldl toggle s).Nodup := by
  induction es generalizing s with
  | nil => exact h
  | cons e tl ih => exact ih (toggle_nodup h e)

/-- Membership after one toggle: the membership of `a` is flipped when
`a = e` and unchanged otherwise. -/
theorem mem_toggle {s : List Edge} (h : s.Nodup) (e a : Edge) :
    a ∈ toggle s e ↔ Xor' (a ∈ s) (a = e) := by
  unfold toggle
  split
  · next he =>
    rw [h.mem_erase_iff, Xor']
    by_cases hae : a = e
    · subst hae
      simp [he]
    · simp [hae]
  · next he =>
    rw [List.mem_append, List.mem_singleton, Xor']
    by_cases hae : a = e
    · subst hae
      simp [he]
    · simp [hae]

/-- Composing two parity flips is a flip by the sum's parity. -/
theorem xor_xor_parity (P : Prop) (m n : ℕ) :
    Xor' (Xor' P (m % 2 = 1)) (n % 2 = 1) ↔ Xor' P ((m + n) % 2 = 1) := by
  have hmn : (m + n) % 2 = 1 ↔ ¬((m % 2 = 1) ↔ (n % 2 = 1)) := by omega
  rw [hmn]
  unfold Xor'
  tauto

/-- Membership after folding toggles over an edge list: the initial
membership of `a` is flipped once per occurrence of `a`. -/
theorem mem_foldl_toggle (es : List Edge) {s : List Edge} (h : s.Nodup) (a : Edge) :
    a ∈ es.foldl toggle s ↔ Xor' (a ∈ s) (es.count a % 2 = 1) := by
  induction es generalizing s with
  | nil => simp [Xor']
  | cons e tl ih =>
    rw [List.foldl_cons, ih (toggle_nodup h e), mem_toggle h e a]
    by_cases hae : a = e
    · subst hae
      rw [List.count_cons_self]
      have h1 : (tl.count a + 1) % 2 = 1 ↔ ¬(tl.count a % 2 = 1) := by omega
      rw [h1]
      unfold Xor'
      tauto
    · rw [List.count_cons_of_ne hae]
      unfold Xor'
      tauto

/-- Membership in the nested fold over bad triangles, each contributing its
three edges. -/
theorem mem_foldl_toggle_triangles (l : List Triangle) {s : List Edge} (h : s.Nodup)
    (a : Edge) :
    a ∈ l.foldl (fun s t => t.edges.foldl toggle s) s ↔
      Xor' (a ∈ s) ((allEdges l).count a % 2 = 1) := by
  induction l generalizing s with
  | nil => simp [allEdges, Xor']
  | cons t tl ih =>
    rw [List.foldl_cons, ih (foldl_toggle_nodup t.edges h), mem_foldl_toggle t.edges h a]
    have hall : allEdges (t :: tl) = t.edges ++ allEdges tl := rfl
    rw [hall, List.count_append]
    exact xor_xor_parity _ _ _

/-- Claim C5: for any finite collection of bad triangles, in any order, the
toggle-based cavity boundary contains exactly the edges occurring an odd
number of times among the bad triangles' edges — the XOR-style toggle is
extensionally the accumulate-counts-then-filter-odd definition. -/
theorem c5_boundary_toggle_odd (bad : List Triangle) (e : Edge) :
    e ∈ boundaryEdges bad ↔ Odd ((allEdges bad).count e) := by
  rw [boundaryEdges, mem_foldl_toggle_triangles bad List.nodup_nil e, Nat.odd_iff, Xor']
  simp

set_option maxRecDepth 100000 in
unseal Rat.add Rat.sub Rat.mul Rat.inv in
/-- Witness for C5 at a concrete input: for the single bad triangle
`(0,0),(1,0),(0,1)` each of its edges occurs once, so the edge from `(0,0)`
to `(1,0)` is on the toggled boundary. -/
theorem c5_boundary_toggle_odd_witness :
    mkEdge ⟨0, 0⟩ ⟨1, 0⟩ ∈ boundaryEdges [mkTriangle ⟨0, 0⟩ ⟨1, 0⟩ ⟨0, 1⟩] :=
  (c5_boundary_toggle_odd [mkTriangle ⟨0, 0⟩ ⟨1, 0⟩ ⟨0, 1⟩] (mkEdge ⟨0, 0⟩ ⟨1, 0⟩)).mpr
    (by decide)

/-- A left fold of `min` is at most its initial value. -/
theorem foldl_min_le_init (f : Point → ℚ) (l : List Point) (a : ℚ) :
    l.foldl (fun m q => min m (f q)) a ≤ a := by
  induction l generalizing a with
  | nil => exact le_refl a
  | cons q tl ih => exact le_trans (ih (min a (f q))) (min_le_left a (f q))

/-- A left fold of `min` is at most the value of every list element. -/
theorem foldl_min_le_mem (f : Point → ℚ) {p : Point} {l : List Point} (h : p ∈ l)
    (a : ℚ) : l.foldl (fun m q => min m (f q)) a ≤ f p := by
  induction l generalizing a with
  | nil => cases h
  | cons q tl ih =>
    rcases List.mem_cons.mp h with rfl | hmem
    · exact le_trans (foldl_min_le_init f tl (min a (f p))) (min_le_right a (f p))
    · exact ih hmem (min a (f q))

/-- A left fold of `max` is at least its initial value. -/
theorem init_le_foldl_max (f : Point → ℚ) (l : List Point) (a : ℚ) :
    a ≤ l.foldl (fun m q => max m (f q)) a := by
  induction l generalizing a with
  | nil => exact le_refl a
  | cons q tl ih => exact le_trans (le_max_left a (f q)) (ih (max a (f q)))

/-- A left fold of `max` is at least the value of every list element. -/
theorem mem_le_foldl_max (f : Point → ℚ) {p : Point} {l : List Point} (h : p ∈ l)
    (a : ℚ) : f p ≤ l.foldl (fun m q => max m (f q)) a := by
  induction l generalizing a with
  | nil => cases h
  | cons q tl ih =>
    rcases List.mem_cons.mp h with rfl | hmem
    · exact le_trans (le_max_right a (f p)) (init_le_foldl_max f tl (max a (f p)))
    · exact ih hmem (max a (f q))

/-- Every input point is bounded below by the bounding-box minimum abscissa. -/
theorem minX_le (p0 : Point) (rest : List Point) {p : Point} (hp : p ∈ p0 :: rest) :
    minX p0 rest ≤ p.x := by
  rcases List.mem_cons.mp hp with rfl | hmem
  · exact foldl_min_le_init Point.x rest p.x
  · exact foldl_min_le_mem Point.x hmem p0.x

/-- Every input point is bounded above by the bounding-box maximum abscissa. -/
theorem le_maxX (p0 : Point) (rest : List Point) {p : Point} (hp : p ∈ p0 :: rest) :
    p.x ≤ maxX p0 rest := by
  rcases List.mem_cons.mp hp with rfl | hmem
  · exact init_le_foldl_max Point.x rest p.x
  · exact mem_le_foldl_max Point.x hmem p0.x

/-- Every input point is bounded below by the bounding-box minimum ordinate. -/
theorem minY_le (p0 : Point) (rest : List Point) {p : Point} (hp : p ∈ p0 :: rest) :
    minY p0 rest ≤ p.y := by
  rcases List.mem_cons.mp hp with rfl | hmem
  · exact foldl_min_le_init Point.y rest p.y
  · exact foldl_min_le_mem Point.y hmem p0.y

/-- Every input point is bounded above by the bounding-box maximum ordinate. -/
theorem le_maxY (p0 : Point) (rest : List Point) {p : Point} (hp : p ∈ p0 :: rest) :
    p.y ≤ maxY p0 rest := by
  rcases List.mem_cons.mp hp with rfl | hmem
  · exact init_le_foldl_max Point.y rest p.y
  · exact mem_le_foldl_max Point.y hmem p0.y

/-- With a nondegenerate bounding box, the sorted vertex order of the super
triangle is `v1, v3, v2` (by increasing abscissa). -/
theorem createSuperTriangle_fst (p0 : Point) (rest : List Point)
    (hΔ : 0 < deltaMax p0 rest) :
    (createSuperTriangle p0 rest).1 =
      ⟨superV1 p0 rest, superV3 p0 rest, superV2 p0 rest⟩ := by
  have h12 : ptLe (superV1 p0 rest) (superV2 p0 rest) = true := by
    have hx : (superV1 p0 rest).x < (superV2 p0 rest).x := by
      unfold superV1 superV2
      dsimp only
      linarith
    unfold ptLe
    rw [if_pos hx]
  have h23 : ptLe (superV2 p0 rest) (superV3 p0 rest) = false := by
    have hx : (superV3 p0 rest).x < (superV2 p0 rest).x := by
      unfold superV2 superV3
      dsimp only
      linarith
    unfold ptLe
    rw [if_neg (by linarith), if_pos hx]
  have h13 : ptLe (superV1 p0 rest) (superV3 p0 rest) = true := by
    have hx : (superV1 p0 rest).x < (superV3 p0 rest).x := by
      unfold superV1 superV3
      dsimp only
      linarith
    unfold ptLe
    rw [if_pos hx]
  show mkTriangle _ _ _ = _
  simp [mkTriangle, sort3, sort2, h12, h23, h13]

set_option maxHeartbeats 1000000 in
/-- Claim C6 (amended): for every input whose bounding box is nondegenerate
(`delta_max > 0`), the super triangle strictly contains every input point
(hence the whole bounding box); the margin factors 20 and 10 exceed the
claimed minimum of 2.  (The counterexample forces the restriction: for a
degenerate bounding box, e.g. a single point, `delta_max = 0` and the super
triangle collapses.) -/
theorem c6_amended (p0 : Point) (rest : List Point) (p : Point)
    (hp : p ∈ p0 :: rest) (hΔ : 0 < deltaMax p0 rest) :
    strictlyInside (createSuperTriangle p0 rest).1 p := by
  rw [createSuperTriangle_fst p0 rest hΔ]
  have hxlo := minX_le p0 rest hp
  have hxhi := le_maxX p0 rest hp
  have hylo := minY_le p0 rest hp
  have hyhi := le_maxY p0 rest hp
  have hdx : maxX p0 rest - minX p0 rest ≤ deltaMax p0 rest :=
    le_max_left (maxX p0 rest - minX p0 rest) (maxY p0 rest - minY p0 rest)
  have hdy : maxY p0 rest - minY p0 rest ≤ deltaMax p0 rest :=
    le_max_right (maxX p0 rest - minX p0 rest) (maxY p0 rest - minY p0 rest)
  have hm : midX p0 rest = (minX p0 rest + maxX p0 rest) / 2 := rfl
  have hn : midY p0 rest = (minY p0 rest + maxY p0 rest) / 2 := rfl
  have hax1 : p.x - midX p0 rest ≤ deltaMax p0 rest / 2 := by rw [hm]; linarith
  have hax2 : -(deltaMax p0 rest / 2) ≤ p.x - midX p0 rest := by rw [hm]; linarith
  have hay1 : p.y - midY p0 rest ≤ deltaMax p0 rest / 2 := by rw [hn]; linarith
  have hay2 : -(deltaMax p0 rest / 2) ≤ p.y - midY p0 rest := by rw [hn]; linarith
  have hΔ3 : 0 < deltaMax p0 rest ^ 3 := pow_pos hΔ 3
  refine ⟨?_, ?_, ?_⟩
  · have e1 : cross (superV1 p0 rest) (superV3 p0 rest) p *
        cross (superV1 p0 rest) (superV3 p0 rest) (superV2 p0 rest) =
        1200 * deltaMax p0 rest ^ 3 *
          (400 * deltaMax p0 rest + 30 * (p.x - midX p0 rest) -
            20 * (p.y - midY p0 rest)) := by
      unfold cross superV1 superV2 superV3
      dsimp only
      ring
    rw [e1]
    have hL : 0 < 400 * deltaMax p0 rest + 30 * (p.x - midX p0 rest) -
        20 * (p.y - midY p0 rest) := by linarith
    have h1200 : (0 : ℚ) < 1200 * deltaMax p0 rest ^ 3 := by
      have : (0 : ℚ) < 1200 := by norm_num
      exact mul_pos this hΔ3
    exact mul_pos h1200 hL
  · have e2 : cross (superV3 p0 rest) (superV2 p0 rest) p *
        cross (superV3 p0 rest) (superV2 p0 rest) (superV1 p0 rest) =
        1200 * deltaMax p0 rest ^ 3 *
          (400 * deltaMax p0 rest - 30 * (p.x - midX p0 rest) -
            20 * (p.y - midY p0 rest)) := by
      unfold cross superV1 superV2 superV3
      dsimp only
      ring
    rw [e2]
    have hL : 0 < 400 * deltaMax p0 rest - 30 * (p.x - midX p0 rest) -
        20 * (p.y - midY p0 rest) := by linarith
    have h1200 : (0 : ℚ) < 1200 * deltaMax p0 rest ^ 3 := by
      have : (0 : ℚ) < 1200 := by norm_num
      exact mul_pos this hΔ3
    exact mul_pos h1200 hL
  · have e3 : cross (superV2 p0 rest) (superV1 p0 rest) p *
        cross (superV2 p0 rest) (superV1 p0 rest) (superV3 p0 rest) =
        48000 * deltaMax p0 rest ^ 3 *
          (p.y - midY p0 rest + 10 * deltaMax p0 rest) := by
      unfold cross superV1 superV2 superV3
      dsimp only
      ring
    rw [e3]
    have hL : 0 < p.y - midY p0 rest + 10 * deltaMax p0 rest := by linarith
    have h48000 : (0 : ℚ) < 48000 * deltaMax p0 rest ^ 3 := by
      have : (0 : ℚ) < 48000 := by norm_num
      exact mul_pos this hΔ3
    exact mul_pos h48000 hL

set_option maxRecDepth 100000 in
unseal Rat.add Rat.sub Rat.mul Rat.inv in
/-- Witness for C6 (amended) at a concrete input: for the two-point input
`(0,0),(1,1)` the bounding box is nondegenerate and `(0,0)` lies strictly
inside the super triangle. -/
theorem c6_amended_witness :
    strictlyInside (createSuperTriangle ⟨0, 0⟩ [⟨1, 1⟩]).1 ⟨0, 0⟩ :=
  c6_amended ⟨0, 0⟩ [⟨1, 1⟩] ⟨0, 0⟩ (by decide) (by decide)

/-- Looking up after one incidence insertion: the entry of `e` gains `t` at
the end; all other entries are unchanged. -/
theorem lookupEdge_insertIncidence (m : List (Edge × List Triangle)) (e : Edge)
    (t : Triangle) (a : Edge) :
    lookupEdge (insertIncidence m e t) a =
      if a = e then lookupEdge m a ++ [t] else lookupEdge m a := by
  induction m with
  | nil =>
    by_cases hae : a = e
    · subst hae
      simp [insertIncidence, lookupEdge]
    · simp [insertIncidence, lookupEdge, hae, Ne.symm hae]
  | cons hd tl ih =>
    obtain ⟨e0, l⟩ := hd
    by_cases he0 : e0 = e
    · subst he0
      by_cases hae : a = e0
      · subst hae
        simp [insertIncidence, lookupEdge]
      · simp [insertIncidence, lookupEdge, hae, Ne.symm hae]
    · have hins : insertIncidence ((e0, l) :: tl) e t = (e0, l) :: insertIncidence tl e t := by
        simp [insertIncidence, he0]
      rw [hins]
      by_cases hae : e0 = a
      · have hane : ¬ a = e := fun hh => he0 (hae.trans hh)
        simp [lookupEdge, hae, hane]
      · simp only [lookupEdge, if_neg hae]
        exact ih

/-- The keys after one incidence insertion: unchanged when the key is already
present, otherwise the new key is appended. -/
theorem keysOf_insertIncidence (m : List (Edge × List Triangle)) (e : Edge)
    (t : Triangle) :
    keysOf (insertIncidence m e t) =
      if e ∈ keysOf m then keysOf m else keysOf m ++ [e] := by
  induction m with
  | nil => simp [insertIncidence, keysOf]
  | cons hd tl ih =>
    obtain ⟨e0, l⟩ := hd
    by_cases he0 : e0 = e
    · subst he0
      simp [insertIncidence, keysOf]
    · have hins : insertIncidence ((e0, l) :: tl) e t = (e0, l) :: insertIncidence tl e t := by
        simp [insertIncidence, he0]
      rw [hins]
      have hk : keysOf ((e0, l) :: insertIncidence tl e t) = e0 :: keysOf (insertIncidence tl e t) := rfl
      have hk2 : keysOf ((e0, l) :: tl) = e0 :: keysOf tl := rfl
      rw [hk, hk2, ih]
      by_cases hm : e ∈ keysOf tl
      · have : e ∈ e0 :: keysOf tl := List.mem_cons_of_mem e0 hm
        simp [hm, this]
      · have : ¬ e ∈ e0 :: keysOf tl := by
          intro hh
          rcases List.mem_cons.mp hh with hh1 | hh2
          · exact he0 hh1.symm
          · exact hm hh2
        simp [hm, this]

/-- Key membership after one incidence insertion. -/
theorem mem_keysOf_insertIncidence (m : List (Edge × List Triangle)) (e : Edge)
    (t : Triangle) (a : Edge) :
    a ∈ keysOf (insertIncidence m e t) ↔ a ∈ keysOf m ∨ a = e := by
  rw [keysOf_insertIncidence]
  split
  · next he =>
    constructor
    · exact Or.inl
    · rintro (h | rfl)
      · exact h
      · exact he
  · next he => simp

/-- Incidence insertion preserves duplicate-free keys. -/
theorem keysOf_insertIncidence_nodup {m : List (Edge × List Triangle)}
    (h : (keysOf m).Nodup) (e : Edge) (t : Triangle) :
    (keysOf (insertIncidence m e t)).Nodup := by
  rw [keysOf_insertIncidence]
  split
  · exact h
  · next he =>
    refine List.Nodup.append h (List.nodup_singleton e) ?_
    intro x hx hxe
    rw [List.mem_singleton] at hxe
    subst hxe
    exact he hx

/-- Folding one triangle's edge list into the incidence map appends one copy
of the triangle per occurrence of the queried edge. -/
theorem lookupEdge_foldl_insert (es : List Edge) (m : List (Edge × List Triangle))
    (t : Triangle) (a : Edge) :
    lookupEdge (es.foldl (fun acc e => insertIncidence acc e t) m) a =
      lookupEdge m a ++ List.replicate (es.count a) t := by
  induction es generalizing m with
  | nil => simp
  | cons e tl ih =>
    rw [List.foldl_cons, ih, lookupEdge_insertIncidence]
    by_cases hae : a = e
    · subst hae
      rw [List.count_cons_self, if_pos rfl, List.append_assoc]
      simp [List.replicate_succ]
    · rw [List.count_cons_of_ne hae, if_neg hae]

/-- Key membership after folding one triangle's edge list. -/
theorem mem_keysOf_foldl_insert (es : List Edge) (m : List (Edge × List Triangle))
    (t : Triangle) (a : Edge) :
    a ∈ keysOf (es.foldl (fun acc e => insertIncidence acc e t) m) ↔
      a ∈ keysOf m ∨ a ∈ es := by
  induction es generalizing m with
  | nil => simp
  | cons e tl ih =>
    rw [List.foldl_cons, ih, mem_keysOf_insertIncidence]
    simp [List.mem_cons]
    tauto

/-- Folding one triangle's edge list preserves duplicate-free keys. -/
theorem keysOf_foldl_insert_nodup (es : List Edge) {m : List (Edge × List Triangle)}
    (h : (keysOf m).Nodup) (t : Triangle) :
    (keysOf (es.foldl (fun acc e => insertIncidence acc e t) m)).Nodup := by
  induction es generalizing m with
  | nil => exact h
  | cons e tl ih => exact ih (keysOf_insertIncidence_nodup h e t)

/-- The incidence map built over a triangle list maps each edge to the list
of its incident triangles (provided each triangle has duplicate-free edges). -/
theorem lookupEdge_edgeToTriangles_aux (tris : List Triangle)
    (m : List (Edge × List Triangle)) (a : Edge)
    (h : ∀ t ∈ tris, (Triangle.edges t).Nodup) :
    lookupEdge
        (tris.foldl (fun m t => t.edges.foldl (fun acc e => insertIncidence acc e t) m) m) a =
      lookupEdge m a ++ incidentTris tris a := by
  induction tris generalizing m with
  | nil => simp [incidentTris]
  | cons t tl ih =>
    rw [List.foldl_cons, ih _ (fun u hu => h u (List.mem_cons_of_mem t hu)),
      lookupEdge_foldl_insert]
    have hnd : (Triangle.edges t).Nodup := h t (List.mem_cons_self t tl)
    by_cases hmem : a ∈ t.edges
    · have hc : t.edges.count a = 1 := List.count_eq_one_of_mem hnd hmem
      have hinc : incidentTris (t :: tl) a = t :: incidentTris tl a := by
        simp [incidentTris, List.filter_cons, hmem]
      rw [hc, hinc]
      simp
    · have hc : t.edges.count a = 0 := List.count_eq_zero.mpr hmem
      have hinc : incidentTris (t :: tl) a = incidentTris tl a := by
        simp [incidentTris, List.filter_cons, hmem]
      rw [hc, hinc]
      simp

/-- Lookup in the full incidence map is exactly the incident-triangles list. -/
theorem lookupEdge_edgeToTriangles (tris : List Triangle) (a : Edge)
    (h : ∀ t ∈ tris, (Triangle.edges t).Nodup) :
    lookupEdge (edgeToTriangles tris) a = incidentTris tris a := by
  have haux := lookupEdge_edgeToTriangles_aux tris [] a h
  rw [edgeToTriangles]
  rw [haux]
  rfl

/-- Key membership in the full incidence map. -/
theorem mem_keysOf_edgeToTriangles (tris : List Triangle) (a : Edge) :
    a ∈ keysOf (edgeToTriangles tris) ↔ ∃ t ∈ tris, a ∈ t.edges := by
  have haux : ∀ (l : List Triangle) (m : List (Edge × List Triangle)),
      a ∈ keysOf (l.foldl (fun m t => t.edges.foldl (fun acc e => insertIncidence acc e t) m) m) ↔
        a ∈ keysOf m ∨ ∃ t ∈ l, a ∈ t.edges := by
    intro l
    induction l with
    | nil => intro m; simp
    | cons t tl ih =>
      intro m
      rw [List.foldl_cons, ih, mem_keysOf_foldl_insert]
      simp [List.mem_cons]
      tauto
  rw [edgeToTriangles, haux]
  simp [keysOf]

/-- The full incidence map has duplicate-free keys. -/
theorem keysOf_edgeToTriangles_nodup (tris : List Triangle) :
    (keysOf (edgeToTriangles tris)).Nodup := by
  have haux : ∀ (l : List Triangle) (m : List (Edge × List Triangle)),
      (keysOf m).Nodup →
      (keysOf (l.foldl (fun m t => t.edges.foldl (fun acc e => insertIncidence acc e t) m) m)).Nodup := by
    intro l
    induction l with
    | nil => intro m hm; exact hm
    | cons t tl ih =>
      intro m hm
      rw [List.foldl_cons]
      exact ih _ (keysOf_foldl_insert_nodup t.edges hm t)
  exact haux tris [] List.nodup_nil

/-- In a map with duplicate-free keys, every entry is faithfully returned by
lookup of its key. -/
theorem entry_eq_lookupEdge {m : List (Edge × List Triangle)} (h : (keysOf m).Nodup)
    {en : Edge × List Triangle} (hm : en ∈ m) : lookupEdge m en.1 = en.2 := by
  induction m with
  | nil => cases hm
  | cons hd tl ih =>
    obtain ⟨e0, l⟩ := hd
    have hcons : keysOf ((e0, l) :: tl) = e0 :: keysOf tl := rfl
    rw [hcons] at h
    rcases List.mem_cons.mp hm with rfl | hmem
    · simp [lookupEdge]
    · have h1 : en.1 ∈ keysOf tl := List.mem_map_of_mem Prod.fst hmem
      have h2 : e0 ∉ keysOf tl := (List.nodup_cons.mp h).1
      have hne : ¬ e0 = en.1 := fun hh => h2 (hh ▸ h1)
      simp only [lookupEdge, if_neg hne]
      exact ih (List.nodup_cons.mp h).2 hmem

/-- The emission fold of the Voronoi derivation is a `filterMap` over the map
entries. -/
theorem deriveVoronoi_foldl_eq (m : List (Edge × List Triangle))
    (acc : List (Point × Point)) :
    (m.foldl (fun acc entry =>
      match entry.2 with
      | [t1, t2] =>
        match t1.circumcenter, t2.circumcenter with
        | some c1, some c2 => acc ++ [(c1, c2)]
        | _, _ => acc
      | _ => acc) acc) = acc ++ m.filterMap (fun entry => emitEntry entry.2) := by
  induction m generalizing acc with
  | nil => simp
  | cons hd tl ih =>
    rw [List.foldl_cons, ih]
    have hstep : (match hd.2 with
        | [t1, t2] =>
          match t1.circumcenter, t2.circumcenter with
          | some c1, some c2 => acc ++ [(c1, c2)]
          | _, _ => acc
        | _ => acc) = acc ++ (emitEntry hd.2).toList := by
      unfold emitEntry
      rcases hd.2 with _ | ⟨t1, _ | ⟨t2, _ | _⟩⟩ <;> try simp
      rcases t1.circumcenter with _ | c1 <;> rcases t2.circumcenter with _ | c2 <;> simp
    rw [hstep, List.filterMap_cons]
    rcases hemit : emitEntry hd.2 with _ | pr <;> simp [hemit]

/-- The Voronoi derivation equals a `filterMap` of the per-edge emission over
the (duplicate-free) list of Delaunay edge keys. -/
theorem deriveVoronoiDiagram_eq (tris : List Triangle)
    (h : ∀ t ∈ tris, (Triangle.edges t).Nodup) :
    deriveVoronoiDiagram tris =
      (keysOf (edgeToTriangles tris)).filterMap
        (fun e => emitEntry (incidentTris tris e)) := by
  rw [deriveVoronoiDiagram, deriveVoronoi_foldl_eq, List.nil_append, keysOf,
    List.filterMap_map]
  apply List.filterMap_congr
  intro en hen
  have h1 : lookupEdge (edgeToTriangles tris) en.1 = en.2 :=
    entry_eq_lookupEdge (keysOf_edgeToTriangles_nodup tris) hen
  have h2 : lookupEdge (edgeToTriangles tris) en.1 = incidentTris tris en.1 :=
    lookupEdge_edgeToTriangles tris en.1 h
  simp only [Function.comp]
  rw [← h1, h2]

/-- Claim C7: for a well-formed triangulation, the Voronoi derivation emits,
per distinct Delaunay edge (the duplicate-free key list covering exactly the
edges with a nonempty incidence list), one Voronoi edge exactly for the edges
with precisely two incident triangles, both with present circumcenters, whose
endpoints are those two circumcenters (`emitEntry`); edges with one incident
triangle or an absent circumcenter yield none. -/
theorem c7_voronoi_emission (tris : List Triangle)
    (h : ∀ t ∈ tris, (Triangle.edges t).Nodup) :
    ∃ keys : List Edge, keys.Nodup ∧
      (∀ e : Edge, e ∈ keys ↔ incidentTris tris e ≠ []) ∧
      deriveVoronoiDiagram tris =
        keys.filterMap (fun e => emitEntry (incidentTris tris e)) := by
  refine ⟨keysOf (edgeToTriangles tris), keysOf_edgeToTriangles_nodup tris, ?_,
    deriveVoronoiDiagram_eq tris h⟩
  intro e
  rw [mem_keysOf_edgeToTriangles]
  constructor
  · rintro ⟨t, ht, he⟩ hnil
    have hmem : t ∈ incidentTris tris e := by
      simp [incidentTris, List.mem_filter, ht, he]
    rw [hnil] at hmem
    cases hmem
  · intro hne
    obtain ⟨t, ht⟩ := List.exists_mem_of_ne_nil _ hne
    rw [incidentTris, List.mem_filter] at ht
    exact ⟨t, ht.1, by simpa using ht.2⟩

set_option maxRecDepth 100000 in
unseal Rat.add Rat.sub Rat.mul Rat.inv in
/-- Witness for C7 at the concrete square triangulation. -/
theorem c7_voronoi_emission_witness :
    ∃ keys : List Edge, keys.Nodup ∧
      (∀ e : Edge, e ∈ keys ↔ incidentTris [sqT1, sqT2] e ≠ []) ∧
      deriveVoronoiDiagram [sqT1, sqT2] =
        keys.filterMap (fun e => emitEntry (incidentTris [sqT1, sqT2] e)) :=
  c7_voronoi_emission [sqT1, sqT2] (by decide)

/-- The emission is present exactly for a two-triangle incidence with both
circumcenters present. -/
theorem emitEntry_isSome (l : List Triangle) :
    (emitEntry l).isSome = bothPresent l := by
  unfold emitEntry bothPresent
  rcases l with _ | ⟨t1, _ | ⟨t2, _ | _⟩⟩ <;> try simp
  rcases t1.circumcenter with _ | c1 <;> rcases t2.circumcenter with _ | c2 <;> simp

/-- The length of a `filterMap` is the number of elements on which the
function is defined. -/
theorem length_filterMap_isSome (l : List Edge) (f : Edge → Option (Point × Point)) :
    (l.filterMap f).length = (l.filter (fun e => (f e).isSome)).length := by
  induction l with
  | nil => rfl
  | cons e tl ih =>
    rw [List.filterMap_cons, List.filter_cons]
    rcases hf : f e with _ | pr <;> simp [hf, ih]

/-- An edge is among the edges of a triangle list iff some triangle of the
list carries it. -/
theorem mem_allEdges (tris : List Triangle) (e : Edge) :
    e ∈ allEdges tris ↔ ∃ t ∈ tris, e ∈ t.edges := by
  induction tris with
  | nil => simp [allEdges]
  | cons t tl ih =>
    have hcons : allEdges (t :: tl) = t.edges ++ allEdges tl := rfl
    rw [hcons, List.mem_append, ih]
    simp [List.mem_cons]

/-- Two duplicate-free edge lists with the same members have filters of equal
length. -/
theorem filter_length_eq_of_mem_iff {l1 l2 : List Edge} (h1 : l1.Nodup) (h2 : l2.Nodup)
    (hm : ∀ e, e ∈ l1 ↔ e ∈ l2) (p : Edge → Bool) :
    (l1.filter p).length = (l2.filter p).length := by
  have hperm : l1.Perm l2 := by
    rw [List.perm_iff_count]
    intro a
    by_cases ha : a ∈ l1
    · rw [List.count_eq_one_of_mem h1 ha, List.count_eq_one_of_mem h2 ((hm a).mp ha)]
    · rw [List.count_eq_zero.mpr ha, List.count_eq_zero.mpr (fun hh => ha ((hm a).mpr hh))]
  exact (hperm.filter p).length_eq

/-- Inversion of a successful emission: exactly two incident triangles, both
circumcenters present, endpoints the two circumcenters. -/
theorem emitEntry_eq_some {l : List Triangle} {pr : Point × Point}
    (h : emitEntry l = some pr) :
    ∃ t1 t2, l = [t1, t2] ∧
      t1.circumcenter = some pr.1 ∧ t2.circumcenter = some pr.2 := by
  unfold emitEntry at h
  split at h
  · next t1 t2 =>
    split at h
    · next c1 c2 hc1 hc2 =>
      injection h with h'
      subst h'
      exact ⟨t1, t2, rfl, hc1, hc2⟩
    · exact Option.noConfusion h
  · exact Option.noConfusion h

/-- Claim C8 (amended): for a well-formed triangulation, the number of emitted
Voronoi edges equals the number of interior Delaunay edges both of whose
incident triangles have a present circumcenter, and each emitted Voronoi
edge's endpoints are the circumcenters of the two triangles sharing the
corresponding Delaunay edge.  (The counterexample forces restricting the
count to interior edges with both circumcenters present.) -/
theorem c8_dual_count (tris : List Triangle)
    (h : ∀ t ∈ tris, (Triangle.edges t).Nodup) :
    (deriveVoronoiDiagram tris).length = (goodInteriorEdges tris).length ∧
    ∀ pr ∈ deriveVoronoiDiagram tris, ∃ e t1 t2,
      incidentTris tris e = [t1, t2] ∧
      t1.circumcenter = some pr.1 ∧ t2.circumcenter = some pr.2 := by
  have hder := deriveVoronoiDiagram_eq tris h
  constructor
  · rw [hder, length_filterMap_isSome]
    have hcong : (keysOf (edgeToTriangles tris)).filter
        (fun e => (emitEntry (incidentTris tris e)).isSome) =
        (keysOf (edgeToTriangles tris)).filter
          (fun e => bothPresent (incidentTris tris e)) := by
      apply List.filter_congr
      intro e _
      exact emitEntry_isSome (incidentTris tris e)
    rw [hcong, goodInteriorEdges, delaunayEdges]
    apply filter_length_eq_of_mem_iff (keysOf_edgeToTriangles_nodup tris)
      (List.nodup_dedup (allEdges tris))
    intro e
    rw [mem_keysOf_edgeToTriangles, List.mem_dedup, mem_allEdges]
  · intro pr hpr
    rw [hder, List.mem_filterMap] at hpr
    obtain ⟨e, _, hemit⟩ := hpr
    obtain ⟨t1, t2, hl, hc1, hc2⟩ := emitEntry_eq_some hemit
    exact ⟨e, t1, t2, hl, hc1, hc2⟩

set_option maxRecDepth 100000 in
unseal Rat.add Rat.sub Rat.mul Rat.inv in
/-- Witness for C8 (amended) at the concrete square triangulation. -/
theorem c8_dual_count_witness :
    (deriveVoronoiDiagram [sqT1, sqT2]).length = (goodInteriorEdges [sqT1, sqT2]).length ∧
    ∀ pr ∈ deriveVoronoiDiagram [sqT1, sqT2], ∃ e t1 t2,
      incidentTris [sqT1, sqT2] e = [t1, t2] ∧
      t1.circumcenter = some pr.1 ∧ t2.circumcenter = some pr.2 :=
  c8_dual_count [sqT1, sqT2] (by decide)

end BowyerWatson
